import Mathlib

/-!
# goalert `web` package: the bundled-UI handler

A shallow embedding of `web/handler.go`: the in-memory file adapter
(`memoryHandler`), its one-shot index stamping (`memoryHandler.index`), the
path lookup (`memoryHandler.Open`), the root middleware (`rootFSFix`) and the
handler factory (`NewHandler`).

Go strings and byte slices are lists of bytes.  The `sync.Once` latch is a
boolean field of the adapter state, and every method that may fire it returns
the new adapter state next to its result.
-/

set_option autoImplicit false
set_option maxRecDepth 100000

namespace web

/-! ## Go strings and the standard-library functions the handler calls -/

/-- A Go `string` or `[]byte`: a finite sequence of bytes. -/
abbrev GoString := List UInt8

/-- The bytes of an ASCII string literal of the source. -/
def str (s : String) : GoString := s.toList.map (fun c => c.toNat.toUInt8)

/-- Go `strings.Replace(s, old, new, 1)` and `bytes.Replace(s, old, new, 1)`:
the first occurrence of `old` in `s` is replaced by `new`; `s` is returned
unchanged when `old` does not occur.  The empty `old` matches at the beginning
of `s`, so `new` is put in front of `s`. -/
def replaceFirst (old new : GoString) : GoString → GoString
  | [] => if old = [] then new else []
  | c :: s =>
    if old.isPrefixOf (c :: s) then new ++ (c :: s).drop old.length
    else c :: replaceFirst old new s

/-- Go `strings.Contains(s, substr)`: `substr` occurs somewhere in `s`. -/
def stringsContains (substr : GoString) : GoString → Bool
  | [] => substr.isEmpty
  | c :: s => substr.isPrefixOf (c :: s) || stringsContains substr s

/-- Go `fmt.Sprintf` for a format whose only verbs are `%s`, applied to at least as
many string arguments as it has verbs: each `%s` is replaced by the next argument,
every other byte is copied. -/
def Sprintf : GoString → List GoString → GoString
  | [], _ => []
  | [c], _ => [c]
  | c :: d :: fmt, [] => c :: Sprintf (d :: fmt) []
  | c :: d :: fmt, a :: args =>
    if c = 37 ∧ d = 115 then a ++ Sprintf fmt args
    else c :: Sprintf (d :: fmt) (a :: args)

/-- One path element met by `path.Clean`, with the elements kept so far held
innermost first: empty and `.` elements are dropped, `..` removes the element
before it, is dropped at the root of a rooted path and is kept at the start of
a relative one. -/
def pathCleanStep (rooted : Bool) (kept : List GoString) (e : GoString) : List GoString :=
  if e = [] ∨ e = str "." then kept
  else if e = str ".." then
    match kept with
    | [] => if rooted then [] else [e]
    | top :: rest => if top = str ".." then e :: top :: rest else rest
  else e :: kept

/-- Go `path.Clean`: the shortest path equivalent to `p` by purely lexical
processing; the empty result is `.`. -/
def pathClean (p : GoString) : GoString :=
  let rooted := p.head? = some 47
  let kept := (p.splitOn 47).foldl (pathCleanStep rooted) []
  let out := (if rooted then str "/" else []) ++ (str "/").intercalate kept.reverse
  if out = [] then str "." else out

/-- Go `path.Join`: the elements from the first non-empty one on are joined
with slashes and the result is cleaned; no non-empty element gives the empty
string. -/
def pathJoin (elem : List GoString) : GoString :=
  match elem.dropWhile (fun e => e.isEmpty) with
  | [] => []
  | es => pathClean ((str "/").intercalate es)

/-! ## Data model -/

/-- A named blob of the generated asset list `Files`: `f.Name` and `f.Data()`. -/
structure File where
  Name : GoString
  Data : List UInt8
deriving DecidableEq

/-- The values of package `version` read by the stamping: `GitVersion()`,
`GitCommit()`, `GitTreeState()` and `BuildDate().UTC().Format(time.RFC3339)`. -/
structure version where
  GitVersion : GoString
  GitCommit : GoString
  GitTreeState : GoString
  BuildDate : GoString

/-- The served file view: the bytes behind its `*bytes.Reader`, its name and
its size. -/
structure memoryFile where
  Reader : List UInt8
  name : GoString
  size : Nat
deriving DecidableEq

/-- The adapter: the asset map, the `sync.Once` latch (`true` once fired), the
cached index bytes and the mount root. -/
structure memoryHandler where
  files : GoString → Option File
  loadIndex : Bool
  indexData : List UInt8
  root : GoString

/-- The format constant `footer` of `memoryHandler.index`. -/
def footer : GoString :=
  str "\n\n<!-- Version: %s -->\n<!-- GitCommit: %s (%s) -->\n<!-- BuildDate: %s -->\n\n</html>"

/-- The function passed to `m.loadIndex.Do` in `memoryHandler.index`. -/
def memoryHandler.loadIndexBody (v : version) (m : memoryHandler) : memoryHandler :=
  match m.files (str "src/build/index.html") with
  | none => m
  | some f =>
    let stamp := Sprintf footer [v.GitVersion, v.GitCommit, v.GitTreeState, v.BuildDate]
    let data := f.Data
    let data := replaceFirst (str "</html>") stamp data
    { m with indexData := data }

/-- The adapter after `m.loadIndex.Do(body)`: the body runs only when the latch
has not fired, and the latch has fired afterwards. -/
def memoryHandler.onceDo (m : memoryHandler) (body : memoryHandler → memoryHandler) :
    memoryHandler :=
  if m.loadIndex then m else { body m with loadIndex := true }

/-- `memoryHandler.index`: the stamped index view or the error `not found`,
with the adapter state after the call. -/
def memoryHandler.index (v : version) (m : memoryHandler) :
    Except GoString memoryFile × memoryHandler :=
  let m := m.onceDo (memoryHandler.loadIndexBody v)
  if m.indexData.length = 0 then (.error (str "not found"), m)
  else
    (.ok { Reader := m.indexData, name := str "src/build/index.html",
           size := m.indexData.length }, m)

/-- `memoryHandler.Open`: the view served for the request path `file`, with the
adapter state after the call. -/
def memoryHandler.Open (v : version) (m : memoryHandler) (file : GoString) :
    Except GoString memoryFile × memoryHandler :=
  let file := replaceFirst m.root (str "/") file
  if file = str "/index.html" then m.index v
  else
    match m.files (str "src/build" ++ file) with
    | some f => (.ok { Reader := f.Data, name := f.Name, size := f.Data.length }, m)
    | none => m.index v

/-- A `time.Time`, as the nanoseconds elapsed since the zero value `time.Time{}`. -/
abbrev Time := Int

/-- `memoryFile.ModTime`, over the reading `now` of `time.Now()`: the zero time for a
name that contains `/static/`, the current time otherwise. -/
def memoryFile.ModTime (now : Time) (m : memoryFile) : Time :=
  if stringsContains (str "/static/") m.name then 0 else now

/-! ## Middleware and factory -/

/-- The part of `*http.Request` the middleware reads and writes: `req.URL.Path`. -/
structure Request where
  Path : GoString
deriving DecidableEq

/-- The part of `http.ResponseWriter` the middleware writes: the header
entries, in the order `Header().Add` appended them. -/
structure ResponseWriter where
  Header : List (GoString × GoString)
deriving DecidableEq

/-- An `http.Handler`: `ServeHTTP(w, req)` as a function to the response. -/
abbrev Handler := ResponseWriter → Request → ResponseWriter

/-- `rootFSFix`: the root request is sent to the `alerts` page, static paths
get the cache header, and the wrapped handler is called. -/
def rootFSFix (root : GoString) (h : Handler) : Handler :=
  let root := if root = [] then str "/" else root
  fun w req =>
    let req := if req.Path = root then { req with Path := pathJoin [root, str "alerts"] } else req
    let w :=
      if stringsContains (str "/static/") req.Path then
        { w with Header := w.Header ++
            [(str "Cache-Control", str "public, immutable, max-age=315360000")] }
      else w
    h w req

/-- The value built by `newMemoryHandler`: `rootFSFix(root, http.FileServer(m))`,
kept as the middleware root and the adapter `m`. -/
structure memoryServer where
  root : GoString
  m : memoryHandler

/-- `newMemoryHandler`: the asset map is filled from `Files` in order, the root
is stored as given, the latch is unfired and the cache empty. -/
def newMemoryHandler (Files : List File) (root : GoString) : memoryServer :=
  { root := root
    m :=
      { files := Files.foldl
          (fun files f => fun k => if k = f.Name then some f else files k) (fun _ => none)
        loadIndex := false
        indexData := []
        root := root } }

/-- The fields of `*url.URL` that `NewHandler` reads. -/
structure URL where
  Host : GoString
  Path : GoString
deriving DecidableEq

/-- The handler returned by `NewHandler`: the bundled-asset server or
`httputil.NewSingleHostReverseProxy(u)`. -/
inductive httpHandler where
  | bundled (s : memoryServer)
  | reverseProxy (u : URL)

/-- `NewHandler`, over the result of `url.Parse` and the asset list `Files`. -/
def NewHandler (urlParse : GoString → Except GoString URL) (Files : List File)
    (urlStr : GoString) : Except GoString httpHandler :=
  match urlParse urlStr with
  | .error err => .error (str "parse url: " ++ err)
  | .ok u =>
    if u.Host = [] then
      if u.Path = [] then .ok (.bundled (newMemoryHandler Files (str "/")))
      else .ok (.bundled (newMemoryHandler Files u.Path))
    else .ok (.reverseProxy u)

/-! ## Call histories of one adapter -/

/-- A call on the adapter: the warm-up `go m.index()` or a lookup `Open(file)`. -/
inductive Call where
  | index
  | Open (file : GoString)

/-- The result and next state of one call. -/
def memoryHandler.call (v : version) (m : memoryHandler) :
    Call → Except GoString memoryFile × memoryHandler
  | .index => m.index v
  | .Open file => m.Open v file

/-- The adapter state after a history of calls. -/
def memoryHandler.run (v : version) (m : memoryHandler) (cs : List Call) : memoryHandler :=
  cs.foldl (fun m c => (m.call v c).2) m

/-! ## Vocabulary of the statements -/

deriving instance DecidableEq for Except

/-- The stamping of a raw index document `d`: what the latch body stores for it. -/
def stampedIndex (v : version) (d : List UInt8) : List UInt8 :=
  replaceFirst (str "</html>")
    (Sprintf footer [v.GitVersion, v.GitCommit, v.GitTreeState, v.BuildDate]) d

/-- The cache content once the latch has fired on an adapter built by
`newMemoryHandler`: empty without an index blob, its stamping otherwise. -/
def cachedIndex (v : version) (files : GoString → Option File) : List UInt8 :=
  match files (str "src/build/index.html") with
  | none => []
  | some f => stampedIndex v f.Data

/-- The state invariant of an adapter built by `newMemoryHandler`: the cache is
empty until the latch fires and holds `cachedIndex` afterwards. -/
def memoryHandler.Inv (v : version) (m : memoryHandler) : Prop :=
  (m.loadIndex = false ∧ m.indexData = []) ∨
  (m.loadIndex = true ∧ m.indexData = cachedIndex v m.files)

/-- What `index` returns on an adapter that satisfies the invariant. -/
def indexView (v : version) (files : GoString → Option File) : Except GoString memoryFile :=
  if (cachedIndex v files).length = 0 then .error (str "not found")
  else
    .ok { Reader := cachedIndex v files, name := str "src/build/index.html",
          size := (cachedIndex v files).length }

/-- The results of a sequence of calls made one after the other on one adapter. -/
def memoryHandler.serve (v : version) :
    memoryHandler → List Call → List (Except GoString memoryFile)
  | _, [] => []
  | m, c :: cs => (m.call v c).1 :: memoryHandler.serve v (m.call v c).2 cs

/-- The adapter states met by a sequence of calls: the state before each call, then
the state after the last one. -/
def memoryHandler.states (v : version) : memoryHandler → List Call → List memoryHandler
  | m, [] => [m]
  | m, c :: cs => m :: memoryHandler.states v (m.call v c).2 cs

/-- The number of calls of a sequence that find the latch unfired and leave it fired:
the calls in which `sync.Once` runs the stamping body. -/
def memoryHandler.firings (v : version) : memoryHandler → List Call → Nat
  | _, [] => 0
  | m, c :: cs =>
    (if m.loadIndex = false ∧ (m.call v c).2.loadIndex = true then 1 else 0) +
      memoryHandler.firings v (m.call v c).2 cs

/-- The cache content that `index` reads in state `m`: the cache after the latch. -/
def memoryHandler.settled (v : version) (m : memoryHandler) : List UInt8 :=
  (m.onceDo (memoryHandler.loadIndexBody v)).indexData

/-! ## Concrete inputs -/

/-- Provenance values of the stamping scenario. -/
def demoVersion : version :=
  ⟨str "v1.2.3", str "abcd123", str "clean", str "2024-01-01T00:00:00Z"⟩

/-- An asset list with the index document and one script. -/
def demoFiles : List File :=
  [⟨str "src/build/index.html", str "<html></html>"⟩,
   ⟨str "src/build/static/js/main.js", str "x"⟩]

/-- An asset list with the index document and a file named `.html`. -/
def dotHtmlFiles : List File :=
  [⟨str "src/build/index.html", str "<html></html>"⟩,
   ⟨str "src/build/.html", str "x"⟩]

/-- An asset list with one script and no index document. -/
def scriptOnlyFiles : List File :=
  [⟨str "src/build/static/js/main.js", str "x"⟩]

/-- An asset list with the index document and a file under a doubled slash. -/
def doubleSlashFiles : List File :=
  [⟨str "src/build/index.html", str "<html></html>"⟩,
   ⟨str "src/build//index.html", str "x"⟩]

/-- A parser result table for `url.Parse`: the empty string, a bare path and an
absolute URL are parsed as Go does, anything else is taken as malformed. -/
def demoParse (s : GoString) : Except GoString URL :=
  if s = [] then .ok ⟨[], []⟩
  else if s = str "/ui/" then .ok ⟨[], str "/ui/"⟩
  else if s = str "/ui" then .ok ⟨[], str "/ui"⟩
  else if s = str "http://ui.example.com/app" then .ok ⟨str "ui.example.com", str "/app"⟩
  else .error (str "invalid URL")

/-- A wrapped handler that returns the response headers it was given, followed by
an entry recording the request path it was given. -/
def echoHandler : Handler :=
  fun w req => { w with Header := w.Header ++ [(str "path", req.Path)] }

/-- An asset list with the index document and a script directly under `static`. -/
def uiScriptFiles : List File :=
  [⟨str "src/build/index.html", str "<html></html>"⟩,
   ⟨str "src/build/static/x.js", str "x"⟩]

/-- An asset list whose index document has no closing tag. -/
def noTagFiles : List File :=
  [⟨str "src/build/index.html", str "<html>"⟩]

/-- An asset list whose index document is empty. -/
def emptyIndexFiles : List File :=
  [⟨str "src/build/index.html", []⟩]

/-! ## Lemmas on the standard-library models and on the adapter state -/

theorem replaceFirst_append (old new : GoString) (q : GoString) :
    replaceFirst old new (old ++ q) = new ++ q := by
  cases h : old ++ q with
  | nil =>
    have h1 : old = [] := (List.append_eq_nil.mp h).1
    have h2 : q = [] := (List.append_eq_nil.mp h).2
    simp [replaceFirst, h1, h2]
  | cons c s =>
    have hp : old.isPrefixOf (c :: s) = true := by
      rw [← h]; simp [List.isPrefixOf_iff_prefix]
    rw [replaceFirst, if_pos hp, ← h, List.drop_left]

theorem replaceFirst_first (old new pre post : GoString)
    (hfirst : ∀ a b, pre ++ old ++ post = a ++ old ++ b → pre.length ≤ a.length) :
    replaceFirst old new (pre ++ old ++ post) = pre ++ new ++ post := by
  induction pre with
  | nil => simpa using replaceFirst_append old new post
  | cons c pre ih =>
    have hnp : ¬ old.isPrefixOf (c :: (pre ++ old ++ post)) = true := by
      intro hp
      rw [List.isPrefixOf_iff_prefix] at hp
      obtain ⟨b, hb⟩ := hp
      have := hfirst [] b (by simpa using hb.symm)
      simp at this
    have ih2 := ih (fun a b hab => by
      have := hfirst (c :: a) b (by simp [hab])
      simpa using this)
    simp only [List.cons_append]
    rw [replaceFirst, if_neg hnp, ih2]

theorem index_files (v : version) (m : memoryHandler) : (m.index v).2.files = m.files := by
  unfold memoryHandler.index memoryHandler.onceDo memoryHandler.loadIndexBody
  cases m.loadIndex <;> cases m.files (str "src/build/index.html") <;> simp <;> split <;> rfl

theorem index_root (v : version) (m : memoryHandler) : (m.index v).2.root = m.root := by
  unfold memoryHandler.index memoryHandler.onceDo memoryHandler.loadIndexBody
  cases m.loadIndex <;> cases m.files (str "src/build/index.html") <;> simp <;> split <;> rfl

theorem index_latch (v : version) (m : memoryHandler) : (m.index v).2.loadIndex = true := by
  unfold memoryHandler.index memoryHandler.onceDo memoryHandler.loadIndexBody
  cases h : m.loadIndex <;> cases m.files (str "src/build/index.html") <;> simp <;> split <;> simp [h]

theorem index_of_latch (v : version) (m : memoryHandler) (h : m.loadIndex = true) :
    (m.index v).2 = m := by
  unfold memoryHandler.index memoryHandler.onceDo
  simp [h]
  split <;> rfl

theorem index_snd (v : version) (m : memoryHandler) :
    (m.index v).2 = m.onceDo (memoryHandler.loadIndexBody v) := by
  unfold memoryHandler.index
  simp only []
  split <;> rfl

theorem index_data_of_Inv (v : version) (m : memoryHandler) (h : m.Inv v) :
    (m.index v).2.indexData = cachedIndex v m.files := by
  rw [index_snd]
  rcases h with ⟨h1, h2⟩ | ⟨h1, h2⟩
  · simp only [memoryHandler.onceDo, h1, Bool.false_eq_true, if_false,
      memoryHandler.loadIndexBody, cachedIndex, stampedIndex]
    cases m.files (str "src/build/index.html") with
    | none => exact h2
    | some f => rfl
  · simp only [memoryHandler.onceDo, h1, if_true]
    exact h2

theorem index_fst (v : version) (m : memoryHandler) :
    (m.index v).1 =
      if (m.index v).2.indexData.length = 0 then .error (str "not found")
      else .ok { Reader := (m.index v).2.indexData, name := str "src/build/index.html",
                 size := (m.index v).2.indexData.length } := by
  unfold memoryHandler.index
  simp only []
  split <;> simp_all

theorem index_fst_of_Inv (v : version) (m : memoryHandler) (h : m.Inv v) :
    (m.index v).1 = indexView v m.files := by
  rw [index_fst, index_data_of_Inv v m h]; rfl

theorem Inv_index (v : version) (m : memoryHandler) (h : m.Inv v) : ((m.index v).2).Inv v :=
  Or.inr ⟨index_latch v m, by rw [index_data_of_Inv v m h, index_files]⟩

theorem Open_files (v : version) (m : memoryHandler) (p : GoString) :
    (m.Open v p).2.files = m.files := by
  unfold memoryHandler.Open
  simp only []
  split
  · exact index_files v m
  · split
    · rfl
    · exact index_files v m

theorem Open_root (v : version) (m : memoryHandler) (p : GoString) :
    (m.Open v p).2.root = m.root := by
  unfold memoryHandler.Open
  simp only []
  split
  · exact index_root v m
  · split
    · rfl
    · exact index_root v m

theorem Inv_Open (v : version) (m : memoryHandler) (p : GoString) (h : m.Inv v) :
    ((m.Open v p).2).Inv v := by
  unfold memoryHandler.Open
  simp only []
  split
  · exact Inv_index v m h
  · split
    · exact h
    · exact Inv_index v m h

theorem Inv_new (v : version) (Files : List File) (root : GoString) :
    ((newMemoryHandler Files root).m).Inv v := Or.inl ⟨rfl, rfl⟩

theorem run_spec (v : version) (cs : List Call) :
    ∀ m : memoryHandler, m.Inv v →
      (m.run v cs).Inv v ∧ (m.run v cs).files = m.files ∧ (m.run v cs).root = m.root := by
  induction cs with
  | nil => intro m h; exact ⟨h, rfl, rfl⟩
  | cons c cs ih =>
    intro m h
    cases c with
    | index =>
      obtain ⟨a, b, d⟩ := ih (m.index v).2 (Inv_index v m h)
      exact ⟨a, b.trans (index_files v m), d.trans (index_root v m)⟩
    | Open p =>
      obtain ⟨a, b, d⟩ := ih (m.Open v p).2 (Inv_Open v m p h)
      exact ⟨a, b.trans (Open_files v m p), d.trans (Open_root v m p)⟩

theorem Open_fst_of_Inv (v : version) (m : memoryHandler) (p : GoString) (h : m.Inv v) :
    (m.Open v p).1 =
      if replaceFirst m.root (str "/") p = str "/index.html" then indexView v m.files
      else
        match m.files (str "src/build" ++ replaceFirst m.root (str "/") p) with
        | some f => .ok { Reader := f.Data, name := f.Name, size := f.Data.length }
        | none => indexView v m.files := by
  unfold memoryHandler.Open
  simp only []
  split
  · exact index_fst_of_Inv v m h
  · split
    · rfl
    · exact index_fst_of_Inv v m h

theorem stamp_eq (V C T D : GoString) :
    Sprintf footer [V, C, T, D] =
      str "\n\n<!-- Version: " ++ (V ++ (str " -->\n<!-- GitCommit: " ++ (C ++ (str " (" ++
        (T ++ (str ") -->\n<!-- BuildDate: " ++ (D ++ str " -->\n\n</html>"))))))) := by
  rfl

theorem replaceFirst_ne_nil (old new s : GoString) (hs : s ≠ []) (hnew : new ≠ []) :
    replaceFirst old new s ≠ [] := by
  cases s with
  | nil => exact absurd rfl hs
  | cons c s =>
    rw [replaceFirst]
    split
    · simp [hnew]
    · simp

theorem stampedIndex_ne_nil (v : version) (d : List UInt8) (hd : d ≠ []) :
    stampedIndex v d ≠ [] := by
  unfold stampedIndex
  apply replaceFirst_ne_nil _ _ _ hd
  rw [stamp_eq]
  exact List.cons_ne_nil _ _

theorem indexView_of_some (v : version) (files : GoString → Option File) (f : File)
    (hidx : files (str "src/build/index.html") = some f) (hd : f.Data ≠ []) :
    indexView v files =
      .ok { Reader := stampedIndex v f.Data, name := str "src/build/index.html",
            size := (stampedIndex v f.Data).length } := by
  have h : cachedIndex v files = stampedIndex v f.Data := by simp [cachedIndex, hidx]
  have hne := stampedIndex_ne_nil v f.Data hd
  unfold indexView
  rw [h, if_neg]
  simpa using hne

theorem indexView_of_none (v : version) (files : GoString → Option File)
    (hidx : files (str "src/build/index.html") = none) :
    indexView v files = .error (str "not found") := by
  simp [indexView, cachedIndex, hidx]

theorem Open_reachable (v : version) (Files : List File) (root p : GoString) (hist : List Call) :
    (((newMemoryHandler Files root).m.run v hist).Open v p).1 =
      if replaceFirst root (str "/") p = str "/index.html" then
        indexView v (newMemoryHandler Files root).m.files
      else
        match (newMemoryHandler Files root).m.files
            (str "src/build" ++ replaceFirst root (str "/") p) with
        | some f => .ok { Reader := f.Data, name := f.Name, size := f.Data.length }
        | none => indexView v (newMemoryHandler Files root).m.files := by
  obtain ⟨hinv, hfiles, hroot⟩ := run_spec v hist _ (Inv_new v Files root)
  rw [Open_fst_of_Inv v _ p hinv, hfiles, hroot]
  rfl

theorem first_of_forall_drop (tag pre post : GoString)
    (h : ∀ k, k < pre.length → tag.isPrefixOf ((pre ++ tag ++ post).drop k) = false) :
    ∀ a b, pre ++ tag ++ post = a ++ tag ++ b → pre.length ≤ a.length := by
  intro a b hab
  by_contra hlt
  have hk := h a.length (Nat.lt_of_not_le hlt)
  rw [hab, List.append_assoc, List.drop_left] at hk
  have : tag.isPrefixOf (tag ++ b) = true := by simp [List.isPrefixOf_iff_prefix]
  rw [this] at hk
  exact Bool.noConfusion hk

theorem index_reachable (v : version) (Files : List File) (root : GoString) (hist : List Call) :
    (((newMemoryHandler Files root).m.run v hist).index v).1 =
        indexView v (newMemoryHandler Files root).m.files ∧
    (((newMemoryHandler Files root).m.run v hist).index v).2.indexData =
        cachedIndex v (newMemoryHandler Files root).m.files := by
  obtain ⟨hinv, hfiles, _⟩ := run_spec v hist _ (Inv_new v Files root)
  rw [index_fst_of_Inv v _ hinv, index_data_of_Inv v _ hinv, hfiles]
  exact ⟨rfl, rfl⟩

theorem stringsContains_iff (sub : GoString) :
    ∀ s : GoString, stringsContains sub s = true ↔ ∃ a b, s = a ++ sub ++ b := by
  intro s
  induction s with
  | nil =>
    simp only [stringsContains, List.isEmpty_iff]
    constructor
    · intro h; exact ⟨[], [], by simp [h]⟩
    · rintro ⟨a, b, h⟩
      have := congrArg List.length h
      simp at this
      exact List.length_eq_zero.mp (by omega)
  | cons c s ih =>
    simp only [stringsContains, Bool.or_eq_true, ih, List.isPrefixOf_iff_prefix]
    constructor
    · rintro (⟨b, hb⟩ | ⟨a, b, hab⟩)
      · exact ⟨[], b, by simpa using hb.symm⟩
      · exact ⟨c :: a, b, by simp [hab]⟩
    · rintro ⟨a, b, hab⟩
      cases a with
      | nil => exact Or.inl ⟨b, by simpa using hab.symm⟩
      | cons x a =>
        simp only [List.cons_append, List.cons.injEq] at hab
        exact Or.inr ⟨a, b, hab.2⟩

theorem foldl_pathCleanStep_plain (rooted : Bool) (segs : List GoString)
    (hseg : ∀ s ∈ segs, s ≠ [] ∧ s ≠ str "." ∧ s ≠ str "..") :
    ∀ kept, segs.foldl (pathCleanStep rooted) kept = segs.reverse ++ kept := by
  induction segs with
  | nil => intro kept; rfl
  | cons s segs ih =>
    intro kept
    obtain ⟨h1, h2, h3⟩ := hseg s (List.mem_cons_self _ _)
    have hstep : pathCleanStep rooted kept s = s :: kept := by
      simp [pathCleanStep, h1, h2, h3]
    rw [List.foldl_cons, hstep, ih (fun t ht => hseg t (List.mem_cons_of_mem _ ht))]
    simp

theorem intercalate_cons_cons (sep a b : GoString) (l : List GoString) :
    sep.intercalate (a :: b :: l) = a ++ sep ++ sep.intercalate (b :: l) := by
  simp [List.intercalate, List.intersperse]

theorem intercalate_concat (sep a : GoString) (l : List GoString) (hl : l ≠ []) :
    sep.intercalate (l ++ [a]) = sep.intercalate l ++ sep ++ a := by
  induction l with
  | nil => exact absurd rfl hl
  | cons x l ih =>
    cases l with
    | nil => simp [List.intercalate, List.intersperse]
    | cons y l =>
      have := ih (List.cons_ne_nil _ _)
      simp only [List.cons_append] at this ⊢
      rw [intercalate_cons_cons, this, intercalate_cons_cons]
      simp

theorem pathClean_plain (rooted : Bool) (segs : List GoString) (hne : segs ≠ [])
    (hseg : ∀ s ∈ segs, s ≠ [] ∧ (47 : UInt8) ∉ s ∧ s ≠ str "." ∧ s ≠ str "..") :
    pathClean ((if rooted then str "/" else []) ++ (str "/").intercalate segs) =
      (if rooted then str "/" else []) ++ (str "/").intercalate segs := by
  have hslash : str "/" = [47] := by decide
  have hplain : ∀ s ∈ segs, s ≠ [] ∧ s ≠ str "." ∧ s ≠ str ".." :=
    fun s hs => ⟨(hseg s hs).1, (hseg s hs).2.2.1, (hseg s hs).2.2.2⟩
  obtain ⟨s, rest, rfl⟩ := List.exists_cons_of_ne_nil hne
  cases rooted with
  | true =>
    have hp : str "/" ++ (str "/").intercalate (s :: rest) =
        [47].intercalate ([] :: s :: rest) := by
      rw [intercalate_cons_cons, hslash]; simp
    have hsplit : ([47].intercalate ([] :: s :: rest)).splitOn 47 = [] :: s :: rest :=
      List.splitOn_intercalate _ 47 (by
        intro l hl
        rcases List.mem_cons.mp hl with h | h
        · rw [h]; simp
        · exact (hseg l h).2.1) (List.cons_ne_nil _ _)
    have hhead : ([47].intercalate ([] :: s :: rest)).head? = some 47 := by
      rw [intercalate_cons_cons]; rfl
    simp only [if_true]
    unfold pathClean
    simp only [hp, hsplit, hhead, List.foldl_cons, decide_True, if_true]
    have h0 : pathCleanStep true [] [] = [] := by simp [pathCleanStep]
    rw [h0, ← List.foldl_cons, foldl_pathCleanStep_plain true (s :: rest) hplain]
    simp only [List.append_nil, List.reverse_reverse]
    rw [← hp, if_neg]
    rw [hslash]; simp
  | false =>
    have hs := hseg s (List.mem_cons_self _ _)
    obtain ⟨c, s', rfl⟩ := List.exists_cons_of_ne_nil hs.1
    have hc : c ≠ 47 := fun h => hs.2.1 (by rw [h]; exact List.mem_cons_self _ _)
    have hsplit : ((str "/").intercalate ((c :: s') :: rest)).splitOn 47 = (c :: s') :: rest := by
      rw [hslash]
      exact List.splitOn_intercalate _ 47 (fun l hl => (hseg l hl).2.1) (List.cons_ne_nil _ _)
    have hhead : ((str "/").intercalate ((c :: s') :: rest)).head? = some c := by
      cases rest with
      | nil => simp [List.intercalate, List.intersperse]
      | cons y l => rw [intercalate_cons_cons]; rfl
    have hne2 : (str "/").intercalate ((c :: s') :: rest) ≠ [] := by
      intro h; rw [h] at hhead; simp at hhead
    simp only [Bool.false_eq_true, if_false, List.nil_append]
    unfold pathClean
    simp only [hsplit, hhead, Option.some.injEq, hc, decide_False, Bool.false_eq_true, if_false,
      List.nil_append]
    rw [foldl_pathCleanStep_plain false _ hplain]
    simp only [List.append_nil, List.reverse_reverse]
    rw [if_neg hne2]

theorem pathJoin_alerts_plain (rooted : Bool) (segs : List GoString) (hne : segs ≠ [])
    (hseg : ∀ s ∈ segs, s ≠ [] ∧ (47 : UInt8) ∉ s ∧ s ≠ str "." ∧ s ≠ str "..") :
    pathJoin [(if rooted then str "/" else []) ++ (str "/").intercalate segs, str "alerts"] =
      (if rooted then str "/" else []) ++ (str "/").intercalate segs ++ str "/alerts" := by
  have hr : (if rooted then str "/" else []) ++ (str "/").intercalate segs ≠ [] := by
    obtain ⟨s, rest, rfl⟩ := List.exists_cons_of_ne_nil hne
    obtain ⟨c, s', rfl⟩ := List.exists_cons_of_ne_nil (hseg s (List.mem_cons_self _ _)).1
    cases rest with
    | nil => cases rooted <;> simp [List.intercalate, List.intersperse]
    | cons y l => rw [intercalate_cons_cons]; cases rooted <;> simp
  have hsegs2 : ∀ s ∈ segs ++ [str "alerts"],
      s ≠ [] ∧ (47 : UInt8) ∉ s ∧ s ≠ str "." ∧ s ≠ str ".." := by
    intro s hs
    rcases List.mem_append.mp hs with h | h
    · exact hseg s h
    · rw [List.mem_singleton.mp h]; decide
  have hclean := pathClean_plain rooted (segs ++ [str "alerts"]) (by simp) hsegs2
  rw [intercalate_concat _ _ _ hne] at hclean
  unfold pathJoin
  have hdw : List.dropWhile (fun e => e.isEmpty)
      [(if rooted then str "/" else []) ++ (str "/").intercalate segs, str "alerts"] =
      [(if rooted then str "/" else []) ++ (str "/").intercalate segs, str "alerts"] := by
    rw [List.dropWhile_cons_of_neg]
    simpa using hr
  rw [hdw]
  simp only []
  have hj : (str "/").intercalate
      [(if rooted then str "/" else []) ++ (str "/").intercalate segs, str "alerts"] =
      (if rooted then str "/" else []) ++
        ((str "/").intercalate segs ++ str "/" ++ str "alerts") := by
    simp [List.intercalate, List.intersperse]
  rw [hj, hclean]
  have : str "/alerts" = str "/" ++ str "alerts" := by decide
  rw [this]; simp

theorem call_cases (v : version) (m : memoryHandler) (c : Call) :
    m.call v c = m.index v ∨ (m.call v c).2 = m := by
  cases c with
  | index => exact Or.inl rfl
  | Open p =>
    simp only [memoryHandler.call, memoryHandler.Open]
    split
    · exact Or.inl rfl
    · split
      · exact Or.inr rfl
      · exact Or.inl rfl

theorem call_of_latch (v : version) (m : memoryHandler) (c : Call) (h : m.loadIndex = true) :
    (m.call v c).2 = m := by
  rcases call_cases v m c with hc | hc
  · rw [hc]; exact index_of_latch v m h
  · exact hc

theorem settled_index (v : version) (m : memoryHandler) :
    ((m.index v).2).settled v = m.settled v := by
  have hl := index_latch v m
  unfold memoryHandler.settled
  rw [index_snd] at hl ⊢
  simp [memoryHandler.onceDo, hl]
  simp [memoryHandler.onceDo] at hl
  cases hm : m.loadIndex <;> simp [hm]

theorem call_frame (v : version) (m : memoryHandler) (c : Call) :
    (m.call v c).2.files = m.files ∧ (m.call v c).2.root = m.root ∧
      ((m.call v c).2).settled v = m.settled v := by
  rcases call_cases v m c with hc | hc
  · rw [hc]; exact ⟨index_files v m, index_root v m, settled_index v m⟩
  · rw [hc]; exact ⟨rfl, rfl, rfl⟩

theorem index_fst_settled (v : version) (m : memoryHandler) :
    (m.index v).1 =
      if (m.settled v).length = 0 then .error (str "not found")
      else .ok { Reader := m.settled v, name := str "src/build/index.html",
                 size := (m.settled v).length } := by
  rw [index_fst, index_snd]; rfl

theorem call_fst_congr (v : version) (m m2 : memoryHandler) (c : Call)
    (hf : m2.files = m.files) (hr : m2.root = m.root) (hs : m2.settled v = m.settled v) :
    (m2.call v c).1 = (m.call v c).1 := by
  cases c with
  | index => simp only [memoryHandler.call, index_fst_settled, hs]
  | Open p =>
    simp only [memoryHandler.call, memoryHandler.Open, hf, hr]
    split
    · simp only [index_fst_settled, hs]
    · split
      · rfl
      · simp only [index_fst_settled, hs]

theorem serve_get (v : version) (cs : List Call) :
    ∀ (m : memoryHandler) (i : Nat) (c : Call), cs[i]? = some c →
      (m.serve v cs)[i]? = some (m.call v c).1 := by
  induction cs with
  | nil => intro m i c h; simp at h
  | cons d cs ih =>
    intro m i c h
    cases i with
    | zero =>
      simp only [List.getElem?_cons_zero, Option.some.injEq] at h
      simp [memoryHandler.serve, h]
    | succ i =>
      simp only [List.getElem?_cons_succ] at h
      obtain ⟨hf, hr, hs⟩ := call_frame v m d
      simp only [memoryHandler.serve, List.getElem?_cons_succ]
      rw [ih _ i c h, call_fst_congr v m _ c hf hr hs]

theorem states_of_latch (v : version) (cs : List Call) :
    ∀ m : memoryHandler, m.loadIndex = true → ∀ s ∈ m.states v cs, s = m := by
  induction cs with
  | nil => intro m _ s hs; simpa [memoryHandler.states] using hs
  | cons c cs ih =>
    intro m hm s hs
    simp only [memoryHandler.states, List.mem_cons] at hs
    rcases hs with hs | hs
    · exact hs
    · rw [call_of_latch v m c hm] at hs
      exact ih m hm s hs

theorem states_stable (v : version) (cs : List Call) :
    ∀ (m : memoryHandler) (i j : Nat) (mi mj : memoryHandler), i ≤ j →
      (m.states v cs)[i]? = some mi → (m.states v cs)[j]? = some mj →
      mi.loadIndex = true → mj = mi := by
  induction cs with
  | nil =>
    intro m i j mi mj _ hi hj _
    have h1 : mi ∈ m.states v [] := List.getElem?_mem hi
    have h2 : mj ∈ m.states v [] := List.getElem?_mem hj
    simp [memoryHandler.states] at h1 h2
    rw [h1, h2]
  | cons c cs ih =>
    intro m i j mi mj hij hi hj hl
    cases i with
    | zero =>
      simp only [memoryHandler.states, List.getElem?_cons_zero, Option.some.injEq] at hi
      rw [← hi] at hl ⊢
      exact states_of_latch v (c :: cs) m hl mj (List.getElem?_mem hj)
    | succ i =>
      cases j with
      | zero => omega
      | succ j =>
        simp only [memoryHandler.states, List.getElem?_cons_succ] at hi hj
        exact ih _ i j mi mj (by omega) hi hj hl

theorem firings_of_latch (v : version) (cs : List Call) :
    ∀ m : memoryHandler, m.loadIndex = true → m.firings v cs = 0 := by
  induction cs with
  | nil => intro m _; rfl
  | cons c cs ih =>
    intro m hm
    simp only [memoryHandler.firings, hm, Bool.true_eq_false, false_and, if_false, Nat.zero_add]
    rw [call_of_latch v m c hm]
    exact ih m hm

theorem firings_le_one (v : version) (cs : List Call) :
    ∀ m : memoryHandler, m.firings v cs ≤ 1 := by
  induction cs with
  | nil => intro m; simp [memoryHandler.firings]
  | cons c cs ih =>
    intro m
    simp only [memoryHandler.firings]
    split
    · rename_i h
      rw [firings_of_latch v cs _ h.2]
    · have := ih (m.call v c).2
      omega

theorem files_nil (root k : GoString) : (newMemoryHandler [] root).m.files k = none := rfl

theorem files_concat (L : List File) (f : File) (root k : GoString) :
    (newMemoryHandler (L ++ [f]) root).m.files k =
      if k = f.Name then some f else (newMemoryHandler L root).m.files k := by
  simp [newMemoryHandler, List.foldl_append]

theorem files_some_iff (root k : GoString) (b : File) :
    ∀ Files : List File, (newMemoryHandler Files root).m.files k = some b ↔
      ∃ pre post, Files = pre ++ b :: post ∧ b.Name = k ∧ ∀ f ∈ post, f.Name ≠ k := by
  intro Files
  induction Files using List.reverseRecOn with
  | nil =>
    rw [files_nil]
    constructor
    · intro h; exact absurd h (by simp)
    · rintro ⟨pre, post, h, _⟩
      exact absurd h (by simp)
  | append_singleton L f ih =>
    rw [files_concat]
    by_cases hk : k = f.Name
    · rw [if_pos hk]
      constructor
      · intro h
        have hb : f = b := Option.some.inj h
        exact ⟨L, [], by rw [hb], by rw [← hb, hk], by simp⟩
      · rintro ⟨pre, post, h, _, hpost⟩
        rcases List.eq_nil_or_concat post with hp | ⟨post2, g, hp⟩
        · rw [hp] at h
          have := List.append_inj_right' h rfl
          simp at this
          rw [this]
        · rw [hp] at h hpost
          have h2 : L ++ [f] = (pre ++ b :: post2) ++ [g] := by simpa using h
          have hg : [f] = [g] := List.append_inj_right' h2 rfl
          have hfg : f = g := by simpa using hg
          exact absurd hk.symm (hfg ▸ hpost g (by simp))
    · rw [if_neg hk, ih]
      constructor
      · rintro ⟨pre, post, h, hn, hpost⟩
        refine ⟨pre, post ++ [f], by simp [h], hn, ?_⟩
        intro g hg
        rcases List.mem_append.mp hg with hg | hg
        · exact hpost g hg
        · rw [List.mem_singleton.mp hg]; exact fun h => hk h.symm
      · rintro ⟨pre, post, h, hn, hpost⟩
        rcases List.eq_nil_or_concat post with hp | ⟨post2, g, hp⟩
        · rw [hp] at h
          have := List.append_inj_right' h rfl
          simp at this
          exact absurd (by rw [this, hn]) hk
        · rw [hp] at h hpost
          have h2 : L ++ [f] = (pre ++ b :: post2) ++ [g] := by simpa using h
          have hL : L = pre ++ b :: post2 := List.append_inj_left' h2 rfl
          exact ⟨pre, post2, hL, hn, fun x hx => hpost x (by simp [hx])⟩

theorem files_isSome_iff (root k : GoString) :
    ∀ Files : List File, (∃ b, (newMemoryHandler Files root).m.files k = some b) ↔
      ∃ f ∈ Files, f.Name = k := by
  intro Files
  induction Files using List.reverseRecOn with
  | nil => simp [files_nil]
  | append_singleton L f ih =>
    simp only [files_concat]
    by_cases hk : k = f.Name
    · simp only [if_pos hk]
      exact ⟨fun _ => ⟨f, by simp, hk.symm⟩, fun _ => ⟨f, rfl⟩⟩
    · simp only [if_neg hk, ih]
      constructor
      · rintro ⟨g, hg, hn⟩; exact ⟨g, by simp [hg], hn⟩
      · rintro ⟨g, hg, hn⟩
        rcases List.mem_append.mp hg with hg | hg
        · exact ⟨g, hg, hn⟩
        · rw [List.mem_singleton.mp hg] at hn; exact absurd hn.symm hk

theorem replaceFirst_self (old : GoString) : ∀ s : GoString, replaceFirst old old s = s := by
  intro s
  induction s with
  | nil =>
    by_cases h : old = [] <;> simp [replaceFirst, h]
  | cons c s ih =>
    rw [replaceFirst]
    split
    · rename_i hp
      rw [List.isPrefixOf_iff_prefix] at hp
      obtain ⟨t, ht⟩ := hp
      rw [← ht, List.drop_left]
    · rw [ih]

theorem replaceFirst_of_not_contains (old new : GoString) :
    ∀ s : GoString, stringsContains old s = false → replaceFirst old new s = s := by
  intro s
  induction s with
  | nil =>
    intro h
    simp only [stringsContains, List.isEmpty_eq_false] at h
    simp [replaceFirst, h]
  | cons c s ih =>
    intro h
    simp only [stringsContains, Bool.or_eq_false_iff] at h
    rw [replaceFirst, if_neg (by simp [h.1]), ih h.2]

theorem replaceFirst_length (old new : GoString) :
    ∀ s : GoString, stringsContains old s = true →
      (replaceFirst old new s).length + old.length = s.length + new.length := by
  intro s
  induction s with
  | nil =>
    intro h
    simp only [stringsContains, List.isEmpty_iff] at h
    simp [replaceFirst, h]
  | cons c s ih =>
    intro h
    rw [replaceFirst]
    split
    · rename_i hp
      rw [List.isPrefixOf_iff_prefix] at hp
      have hle := hp.length_le
      simp only [List.length_append, List.length_drop]
      omega
    · rename_i hp
      simp only [stringsContains, Bool.or_eq_true] at h
      rcases h with h | h
      · exact absurd h hp
      · have := ih h
        simp only [List.length_cons]
        omega

theorem stampedIndex_nil (v : version) : stampedIndex v [] = [] := by
  have h : ¬ str "</html>" = [] := by decide
  simp [stampedIndex, replaceFirst, h]

theorem stampedIndex_eq_nil_iff (v : version) (d : List UInt8) :
    stampedIndex v d = [] ↔ d = [] :=
  ⟨fun h => by
    by_contra hd
    exact stampedIndex_ne_nil v d hd h, fun h => by rw [h]; exact stampedIndex_nil v⟩

/-! ## The claims -/

/-- C1 (amended): on an adapter whose asset table has a non-empty index blob `f`, after any
history of calls, a request path whose normalised form is neither `/index.html` nor a
key of the table is served the stamped index, which is not empty; `Open("/index.html")`
returns the same view whenever `/index.html` normalises to itself or to a path that is
not a key of the table. -/
theorem fallback_serves_stamped_index (v : version) (Files : List File) (root p : GoString)
    (hist hist2 : List Call) (f : File)
    (hidx : (newMemoryHandler Files root).m.files (str "src/build/index.html") = some f)
    (hdata : f.Data ≠ [])
    (hn : replaceFirst root (str "/") p ≠ str "/index.html")
    (hkey : (newMemoryHandler Files root).m.files
      (str "src/build" ++ replaceFirst root (str "/") p) = none) :
    stampedIndex v f.Data ≠ [] ∧
    (((newMemoryHandler Files root).m.run v hist).Open v p).1 =
      .ok { Reader := stampedIndex v f.Data, name := str "src/build/index.html",
            size := (stampedIndex v f.Data).length } ∧
    ((replaceFirst root (str "/") (str "/index.html") = str "/index.html" ∨
      (newMemoryHandler Files root).m.files
        (str "src/build" ++ replaceFirst root (str "/") (str "/index.html")) = none) →
      (((newMemoryHandler Files root).m.run v hist2).Open v (str "/index.html")).1 =
        (((newMemoryHandler Files root).m.run v hist).Open v p).1) := by
  have hp : (((newMemoryHandler Files root).m.run v hist).Open v p).1 =
      .ok { Reader := stampedIndex v f.Data, name := str "src/build/index.html",
            size := (stampedIndex v f.Data).length } := by
    rw [Open_reachable, if_neg hn, hkey]
    exact indexView_of_some v _ f hidx hdata
  refine ⟨stampedIndex_ne_nil v f.Data hdata, hp, ?_⟩
  intro h
  rw [hp, Open_reachable]
  rcases h with h | h
  · rw [if_pos h]; exact indexView_of_some v _ f hidx hdata
  · split
    · exact indexView_of_some v _ f hidx hdata
    · rw [h]; exact indexView_of_some v _ f hidx hdata

theorem fallback_serves_stamped_index_witness :
    (newMemoryHandler demoFiles (str "/ui/")).m.files (str "src/build/index.html") =
      some ⟨str "src/build/index.html", str "<html></html>"⟩ ∧
    str "<html></html>" ≠ [] ∧
    replaceFirst (str "/ui/") (str "/") (str "/ui/alerts/42") ≠ str "/index.html" ∧
    (newMemoryHandler demoFiles (str "/ui/")).m.files
      (str "src/build" ++ replaceFirst (str "/ui/") (str "/") (str "/ui/alerts/42")) = none ∧
    (((newMemoryHandler demoFiles (str "/ui/")).m.run demoVersion [.index]).Open demoVersion
      (str "/ui/alerts/42")).1 =
      .ok { Reader := stampedIndex demoVersion (str "<html></html>"),
            name := str "src/build/index.html",
            size := (stampedIndex demoVersion (str "<html></html>")).length } :=
  ⟨by decide, by decide, by decide, by decide,
    (fallback_serves_stamped_index demoVersion demoFiles (str "/ui/") (str "/ui/alerts/42")
      [.index] [] ⟨str "src/build/index.html", str "<html></html>"⟩
      (by decide) (by decide) (by decide) (by decide)).2.1⟩

/-- C1 as stated fails: on the adapter mounted at `/index` over a table holding
`src/build/.html`, the unknown path `/foo` is served the stamped index, while
`Open("/index.html")` normalises to `/.html` and returns that asset's bytes. -/
theorem fallback_not_always_index_path_bytes :
    (newMemoryHandler dotHtmlFiles (str "/index")).m.files (str "src/build/index.html") =
      some ⟨str "src/build/index.html", str "<html></html>"⟩ ∧
    replaceFirst (str "/index") (str "/") (str "/foo") ≠ str "/index.html" ∧
    (newMemoryHandler dotHtmlFiles (str "/index")).m.files
      (str "src/build" ++ replaceFirst (str "/index") (str "/") (str "/foo")) = none ∧
    ((newMemoryHandler dotHtmlFiles (str "/index")).m.Open demoVersion (str "/foo")).1 =
      .ok { Reader := stampedIndex demoVersion (str "<html></html>"),
            name := str "src/build/index.html",
            size := (stampedIndex demoVersion (str "<html></html>")).length } ∧
    ((newMemoryHandler dotHtmlFiles (str "/index")).m.Open demoVersion (str "/index.html")).1 =
      .ok { Reader := str "x", name := str "src/build/.html", size := 1 } ∧
    stampedIndex demoVersion (str "<html></html>") ≠ str "x" := by
  decide

/-- C2: on every adapter (any mount root, asset table and latch state), a request path
whose normalised form is not `/index.html` and has the blob `b` under its key is served a
view over `b`: its bytes are the data of `b`, its size their length, its name the name of
`b`; the adapter state is left as it was. -/
theorem known_asset_served_raw (v : version) (m : memoryHandler) (p : GoString) (b : File)
    (hn : replaceFirst m.root (str "/") p ≠ str "/index.html")
    (hb : m.files (str "src/build" ++ replaceFirst m.root (str "/") p) = some b) :
    m.Open v p = (.ok { Reader := b.Data, name := b.Name, size := b.Data.length }, m) := by
  unfold memoryHandler.Open
  simp only [if_neg hn, hb]

theorem known_asset_served_raw_witness :
    replaceFirst (newMemoryHandler demoFiles (str "/ui/")).m.root (str "/")
      (str "/ui/static/js/main.js") ≠ str "/index.html" ∧
    (newMemoryHandler demoFiles (str "/ui/")).m.files
      (str "src/build" ++ replaceFirst (newMemoryHandler demoFiles (str "/ui/")).m.root (str "/")
        (str "/ui/static/js/main.js")) = some ⟨str "src/build/static/js/main.js", str "x"⟩ ∧
    ((newMemoryHandler demoFiles (str "/ui/")).m.Open demoVersion
      (str "/ui/static/js/main.js")).1 =
      .ok { Reader := str "x", name := str "src/build/static/js/main.js", size := 1 } :=
  ⟨by decide, by decide,
    congrArg Prod.fst
      (known_asset_served_raw demoVersion (newMemoryHandler demoFiles (str "/ui/")).m
        (str "/ui/static/js/main.js") ⟨str "src/build/static/js/main.js", str "x"⟩
        (by decide) (by decide))⟩

/-- C3 (amended): on an adapter whose asset table has no index blob, after any history of
calls, a request path whose normalised form is `/index.html` or is not a key of the table
gets the error `not found` and no view. -/
theorem missing_index_not_found (v : version) (Files : List File) (root p : GoString)
    (hist : List Call)
    (hidx : (newMemoryHandler Files root).m.files (str "src/build/index.html") = none)
    (hp : replaceFirst root (str "/") p = str "/index.html" ∨
      (newMemoryHandler Files root).m.files
        (str "src/build" ++ replaceFirst root (str "/") p) = none) :
    (((newMemoryHandler Files root).m.run v hist).Open v p).1 = .error (str "not found") := by
  rw [Open_reachable]
  rcases hp with hp | hp
  · rw [if_pos hp]; exact indexView_of_none v _ hidx
  · split
    · exact indexView_of_none v _ hidx
    · rw [hp]; exact indexView_of_none v _ hidx

theorem missing_index_not_found_witness :
    (newMemoryHandler scriptOnlyFiles (str "/")).m.files (str "src/build/index.html") = none ∧
    (replaceFirst (str "/") (str "/") (str "/alerts") = str "/index.html" ∨
      (newMemoryHandler scriptOnlyFiles (str "/")).m.files
        (str "src/build" ++ replaceFirst (str "/") (str "/") (str "/alerts")) = none) ∧
    (((newMemoryHandler scriptOnlyFiles (str "/")).m.run demoVersion
      [.Open (str "/index.html")]).Open demoVersion (str "/alerts")).1 =
      .error (str "not found") :=
  ⟨by decide, by decide,
    missing_index_not_found demoVersion scriptOnlyFiles (str "/") (str "/alerts")
      [.Open (str "/index.html")] (by decide) (by decide)⟩

/-- C3 as stated fails: over a table with one script and no index blob, the adapter
mounted at `/` serves the script for its own path instead of reporting `not found`. -/
theorem missing_index_known_asset_still_served :
    (newMemoryHandler scriptOnlyFiles (str "/")).m.files (str "src/build/index.html") = none ∧
    ((newMemoryHandler scriptOnlyFiles (str "/")).m.Open demoVersion
      (str "/static/js/main.js")).1 =
      .ok { Reader := str "x", name := str "src/build/static/js/main.js", size := 1 } := by
  decide

/-- C4: when the index document is `pre ++ "</html>" ++ post` with the first closing tag
right after `pre`, `index` on an adapter built by `newMemoryHandler` returns, after any
history of calls, the view over `pre`, the comment block with version, commit, tree state
and build date in that order, the closing tag and `post`; these bytes are the cached
index. -/
theorem index_stamps_before_first_closing_tag (v : version) (Files : List File)
    (root pre post : GoString) (hist : List Call) (f : File)
    (hidx : (newMemoryHandler Files root).m.files (str "src/build/index.html") = some f)
    (hd : f.Data = pre ++ str "</html>" ++ post)
    (hfirst : ∀ a b, pre ++ str "</html>" ++ post = a ++ str "</html>" ++ b →
      pre.length ≤ a.length) :
    (((newMemoryHandler Files root).m.run v hist).index v).1 =
      .ok { Reader := pre ++ str "\n\n<!-- Version: " ++ v.GitVersion ++
              str " -->\n<!-- GitCommit: " ++ v.GitCommit ++ str " (" ++ v.GitTreeState ++
              str ") -->\n<!-- BuildDate: " ++ v.BuildDate ++ str " -->\n\n" ++
              str "</html>" ++ post
            name := str "src/build/index.html"
            size := (pre ++ str "\n\n<!-- Version: " ++ v.GitVersion ++
              str " -->\n<!-- GitCommit: " ++ v.GitCommit ++ str " (" ++ v.GitTreeState ++
              str ") -->\n<!-- BuildDate: " ++ v.BuildDate ++ str " -->\n\n" ++
              str "</html>" ++ post).length } ∧
    (((newMemoryHandler Files root).m.run v hist).index v).2.indexData =
      pre ++ str "\n\n<!-- Version: " ++ v.GitVersion ++
        str " -->\n<!-- GitCommit: " ++ v.GitCommit ++ str " (" ++ v.GitTreeState ++
        str ") -->\n<!-- BuildDate: " ++ v.BuildDate ++ str " -->\n\n" ++
        str "</html>" ++ post := by
  have hs : stampedIndex v f.Data =
      pre ++ str "\n\n<!-- Version: " ++ v.GitVersion ++
        str " -->\n<!-- GitCommit: " ++ v.GitCommit ++ str " (" ++ v.GitTreeState ++
        str ") -->\n<!-- BuildDate: " ++ v.BuildDate ++ str " -->\n\n" ++
        str "</html>" ++ post := by
    unfold stampedIndex
    rw [hd, replaceFirst_first _ _ _ _ hfirst, stamp_eq]
    simp only [List.append_assoc]
    rfl
  have hne : f.Data ≠ [] := by
    rw [hd]; intro h
    have := congrArg List.length h
    simp [str] at this
  obtain ⟨h1, h2⟩ := index_reachable v Files root hist
  rw [h1, h2, indexView_of_some v _ f hidx hne, hs]
  exact ⟨rfl, by simp [cachedIndex, hidx, hs]⟩

theorem index_stamps_before_first_closing_tag_witness :
    (newMemoryHandler demoFiles (str "/")).m.files (str "src/build/index.html") =
      some ⟨str "src/build/index.html", str "<html></html>"⟩ ∧
    str "<html></html>" = str "<html>" ++ str "</html>" ++ [] ∧
    (((newMemoryHandler demoFiles (str "/")).m.run demoVersion []).index demoVersion).2.indexData =
      str ("<html>\n\n<!-- Version: v1.2.3 -->\n<!-- GitCommit: abcd123 (clean) -->\n" ++
        "<!-- BuildDate: 2024-01-01T00:00:00Z -->\n\n</html>") :=
  ⟨by decide, by decide,
    (index_stamps_before_first_closing_tag demoVersion demoFiles (str "/") (str "<html>") [] []
      ⟨str "src/build/index.html", str "<html></html>"⟩ (by decide) (by decide)
      (first_of_forall_drop _ _ _ (by decide))).2.trans (by decide)⟩

/-- C5 (the code at the failing input): `NewHandler("/ui")` builds the adapter mounted at
`/ui`; there the request `/ui/static/js/main.js` for the asset `/static/js/main.js`, whose
key is in the table, normalises to `//static/js/main.js`, which is no key, and is served
the stamped index, not the script that the adapter mounted at `/` serves for
`/static/js/main.js`. -/
theorem mount_root_without_slash_misses_asset :
    NewHandler demoParse demoFiles (str "/ui") =
      .ok (.bundled (newMemoryHandler demoFiles (str "/ui"))) ∧
    str "/ui" ≠ str "/" ∧
    str "/static/js/main.js" ≠ str "/index.html" ∧
    (newMemoryHandler demoFiles (str "/ui")).m.files
      (str "src/build" ++ str "/static/js/main.js") =
      some ⟨str "src/build/static/js/main.js", str "x"⟩ ∧
    replaceFirst (str "/ui") (str "/") (str "/ui" ++ str "/static/js/main.js") =
      str "//static/js/main.js" ∧
    ((newMemoryHandler demoFiles (str "/ui")).m.Open demoVersion
      (str "/ui" ++ str "/static/js/main.js")).1 =
      .ok { Reader := stampedIndex demoVersion (str "<html></html>"),
            name := str "src/build/index.html",
            size := (stampedIndex demoVersion (str "<html></html>")).length } ∧
    ((newMemoryHandler demoFiles (str "/")).m.Open demoVersion (str "/static/js/main.js")).1 =
      .ok { Reader := str "x", name := str "src/build/static/js/main.js", size := 1 } ∧
    ((newMemoryHandler demoFiles (str "/ui")).m.Open demoVersion
      (str "/ui" ++ str "/static/js/main.js")).1 ≠
    ((newMemoryHandler demoFiles (str "/")).m.Open demoVersion (str "/static/js/main.js")).1 :=
  ⟨rfl, by decide, by decide, by decide, by decide, by decide, by decide, by decide⟩

/-- C6 (amended): the middleware adds `Cache-Control: public, immutable,
max-age=315360000` if and only if the path it hands to the wrapped handler contains
`/static/`: for an incoming path other than the (upgraded) mount root this is the
incoming path itself, and for the mount root it is `path.Join(root, "alerts")`. -/
theorem cache_header_iff_delivered_path_static (root : GoString) (h : Handler)
    (w : ResponseWriter) (req : Request) :
    (req.Path ≠ (if root = [] then str "/" else root) →
      ((∃ a b, req.Path = a ++ str "/static/" ++ b) →
        rootFSFix root h w req =
          h ⟨w.Header ++ [(str "Cache-Control", str "public, immutable, max-age=315360000")]⟩
            req) ∧
      ((¬ ∃ a b, req.Path = a ++ str "/static/" ++ b) → rootFSFix root h w req = h w req)) ∧
    (req.Path = (if root = [] then str "/" else root) →
      ((∃ a b, pathJoin [if root = [] then str "/" else root, str "alerts"] =
          a ++ str "/static/" ++ b) →
        rootFSFix root h w req =
          h ⟨w.Header ++ [(str "Cache-Control", str "public, immutable, max-age=315360000")]⟩
            ⟨pathJoin [if root = [] then str "/" else root, str "alerts"]⟩) ∧
      ((¬ ∃ a b, pathJoin [if root = [] then str "/" else root, str "alerts"] =
          a ++ str "/static/" ++ b) →
        rootFSFix root h w req =
          h w ⟨pathJoin [if root = [] then str "/" else root, str "alerts"]⟩)) := by
  refine ⟨fun hne => ⟨fun hc => ?_, fun hc => ?_⟩, fun heq => ⟨fun hc => ?_, fun hc => ?_⟩⟩
  · have hc2 := (stringsContains_iff _ _).mpr hc
    simp only [rootFSFix, if_neg hne, hc2, if_true]
  · have hc2 : stringsContains (str "/static/") req.Path = false := by
      cases hs : stringsContains (str "/static/") req.Path
      · rfl
      · exact absurd ((stringsContains_iff _ _).mp hs) hc
    simp only [rootFSFix, if_neg hne, hc2, Bool.false_eq_true, if_false]
  · have hc2 := (stringsContains_iff _ _).mpr hc
    simp only [rootFSFix, if_pos heq, hc2, if_true]
  · have hc2 : stringsContains (str "/static/")
        (pathJoin [if root = [] then str "/" else root, str "alerts"]) = false := by
      cases hs : stringsContains (str "/static/")
        (pathJoin [if root = [] then str "/" else root, str "alerts"])
      · rfl
      · exact absurd ((stringsContains_iff _ _).mp hs) hc
    simp only [rootFSFix, if_pos heq, hc2, Bool.false_eq_true, if_false]

theorem cache_header_iff_delivered_path_static_witness :
    str "/ui/static/js/main.js" ≠ (if str "/ui/" = [] then str "/" else str "/ui/") ∧
    (∃ a b, str "/ui/static/js/main.js" = a ++ str "/static/" ++ b) ∧
    rootFSFix (str "/ui/") echoHandler ⟨[]⟩ ⟨str "/ui/static/js/main.js"⟩ =
      echoHandler ⟨[] ++ [(str "Cache-Control", str "public, immutable, max-age=315360000")]⟩
        ⟨str "/ui/static/js/main.js"⟩ :=
  ⟨by decide, ⟨str "/ui", str "js/main.js", by decide⟩,
    ((cache_header_iff_delivered_path_static (str "/ui/") echoHandler ⟨[]⟩
      ⟨str "/ui/static/js/main.js"⟩).1 (by decide)).1 ⟨str "/ui", str "js/main.js", by decide⟩⟩

/-- C6 as stated fails: mounted at `/static`, the incoming path `/static` does not
contain `/static/`, yet the response gets the header, because the test is made on the
rewritten path `/static/alerts`. -/
theorem cache_header_added_for_root_without_static_segment :
    stringsContains (str "/static/") (str "/static") = false ∧
    (¬ ∃ a b, str "/static" = a ++ str "/static/" ++ b) ∧
    rootFSFix (str "/static") echoHandler ⟨[]⟩ ⟨str "/static"⟩ =
      ⟨[(str "Cache-Control", str "public, immutable, max-age=315360000"),
        (str "path", str "/static/alerts")]⟩ :=
  ⟨by decide,
    fun hc => absurd ((stringsContains_iff _ _).mpr hc) (by decide),
    by decide⟩

/-- C7 (amended): for every non-empty mount root `root`, a request whose path equals
`root` reaches the wrapped handler with the path `path.Join(root, "alerts")`; this is
`root` followed by `/alerts` when `root` is an optional leading slash followed by one or
more segments separated by single slashes, none of them empty, `.` or `..` (such as
`/ui`), and it is `/alerts` when `root` is `/`.  With the empty mount root, upgraded to
`/`, a request for `/` reaches the wrapped handler with the path `/alerts`. -/
theorem root_request_rewritten_to_alerts (root : GoString) (h : Handler) (w : ResponseWriter)
    (hroot : root ≠ []) :
    rootFSFix root h w ⟨root⟩ =
      h (if stringsContains (str "/static/") (pathJoin [root, str "alerts"]) then
          ⟨w.Header ++ [(str "Cache-Control", str "public, immutable, max-age=315360000")]⟩
        else w)
        ⟨pathJoin [root, str "alerts"]⟩ ∧
    (∀ (rooted : Bool) (segs : List GoString), segs ≠ [] →
      (∀ s ∈ segs, s ≠ [] ∧ (47 : UInt8) ∉ s ∧ s ≠ str "." ∧ s ≠ str "..") →
      root = (if rooted then str "/" else []) ++ (str "/").intercalate segs →
      pathJoin [root, str "alerts"] = root ++ str "/alerts") ∧
    (root = str "/" → rootFSFix root h w ⟨root⟩ = h w ⟨str "/alerts"⟩) ∧
    rootFSFix [] h w ⟨str "/"⟩ = h w ⟨str "/alerts"⟩ := by
  refine ⟨?_, ?_, ?_, ?_⟩
  · simp only [rootFSFix, if_neg hroot, if_true]
  · intro rooted segs hne hseg hr
    rw [hr]
    exact pathJoin_alerts_plain rooted segs hne hseg
  · intro hr
    rw [hr]
    have hj : pathJoin [str "/", str "alerts"] = str "/alerts" := by decide
    have hc : stringsContains (str "/static/") (str "/alerts") = false := by decide
    have h0 : ¬ str "/" = [] := by decide
    simp only [rootFSFix, if_neg h0, if_true, hj, hc, Bool.false_eq_true, if_false]
  · have hj : pathJoin [str "/", str "alerts"] = str "/alerts" := by decide
    have hc : stringsContains (str "/static/") (str "/alerts") = false := by decide
    simp only [rootFSFix, if_true, hj, hc, Bool.false_eq_true, if_false]

theorem root_request_rewritten_to_alerts_witness :
    str "/ui" ≠ [] ∧
    rootFSFix (str "/ui") echoHandler ⟨[]⟩ ⟨str "/ui"⟩ = ⟨[(str "path", str "/ui/alerts")]⟩ ∧
    pathJoin [str "/ui", str "alerts"] = str "/ui" ++ str "/alerts" :=
  ⟨by decide,
    (root_request_rewritten_to_alerts (str "/ui") echoHandler ⟨[]⟩ (by decide)).1.trans
      (by decide),
    (root_request_rewritten_to_alerts (str "/ui") echoHandler ⟨[]⟩ (by decide)).2.1
      true [str "ui"] (by decide) (by decide) (by decide)⟩

/-- C7 as stated fails for mount roots that end in a slash: the request for the
non-empty mount root `/ui/` reaches the wrapped handler with the path `/ui/alerts`, not
`/ui//alerts`, and the request for the mount root `/` with `/alerts`, not `//alerts`. -/
theorem root_request_not_root_followed_by_alerts :
    str "/ui/" ≠ [] ∧
    rootFSFix (str "/ui/") echoHandler ⟨[]⟩ ⟨str "/ui/"⟩ = ⟨[(str "path", str "/ui/alerts")]⟩ ∧
    str "/ui/alerts" ≠ str "/ui/" ++ str "/alerts" ∧
    rootFSFix (str "/") echoHandler ⟨[]⟩ ⟨str "/"⟩ = ⟨[(str "path", str "/alerts")]⟩ ∧
    str "/alerts" ≠ str "/" ++ str "/alerts" := by
  decide

/-- C8: for every adapter state and every finite sequence of calls (`Open` lookups and
`index` warm-ups) made on it one after the other: at most one call finds the latch
unfired and fires it, so the stamping body runs at most once; once the latch has fired
the adapter state, cached index bytes included, is the same at every later point; and
any two equal calls of the sequence return the same outcome. -/
theorem one_shot_latch (v : version) (m : memoryHandler) (cs : List Call) :
    m.firings v cs ≤ 1 ∧
    (∀ (i j : Nat) (mi mj : memoryHandler), i ≤ j →
      (m.states v cs)[i]? = some mi → (m.states v cs)[j]? = some mj →
      mi.loadIndex = true → mj = mi) ∧
    (∀ (i j : Nat) (c : Call), cs[i]? = some c → cs[j]? = some c →
      (m.serve v cs)[i]? = (m.serve v cs)[j]? ∧
      (m.serve v cs)[i]? = some (m.call v c).1) :=
  ⟨firings_le_one v cs m, states_stable v cs m,
    fun i j c hi hj => ⟨(serve_get v cs m i c hi).trans (serve_get v cs m j c hj).symm,
      serve_get v cs m i c hi⟩⟩

theorem one_shot_latch_witness :
    (newMemoryHandler demoFiles (str "/")).m.firings demoVersion
      [.Open (str "/static/js/main.js"), .Open (str "/alerts"), .index, .Open (str "/alerts")] = 1 ∧
    ((newMemoryHandler demoFiles (str "/")).m.serve demoVersion
      [.Open (str "/static/js/main.js"), .Open (str "/alerts"), .index, .Open (str "/alerts")])[1]? =
    ((newMemoryHandler demoFiles (str "/")).m.serve demoVersion
      [.Open (str "/static/js/main.js"), .Open (str "/alerts"), .index, .Open (str "/alerts")])[3]? :=
  ⟨by decide,
    ((one_shot_latch demoVersion (newMemoryHandler demoFiles (str "/")).m
      [.Open (str "/static/js/main.js"), .Open (str "/alerts"), .index,
        .Open (str "/alerts")]).2.2 1 3 (.Open (str "/alerts")) rfl rfl).1⟩

/-- C9 (the code at the failing input): `NewHandler("/ui")` builds the adapter mounted at
`/ui`; there `/ui/index.html` normalises to `//index.html`, not to `/index.html`, so it
reaches the stamped index only when no key matches: over a table that holds
`src/build//index.html` it is served that blob, while `/index.html` is served the stamped
index. -/
theorem ui_index_path_differs_with_double_slash_key :
    NewHandler demoParse doubleSlashFiles (str "/ui") =
      .ok (.bundled (newMemoryHandler doubleSlashFiles (str "/ui"))) ∧
    replaceFirst (str "/ui") (str "/") (str "/ui/index.html") = str "//index.html" ∧
    replaceFirst (str "/ui") (str "/") (str "/index.html") = str "/index.html" ∧
    ((newMemoryHandler doubleSlashFiles (str "/ui")).m.Open demoVersion
      (str "/ui/index.html")).1 =
      .ok { Reader := str "x", name := str "src/build//index.html", size := 1 } ∧
    ((newMemoryHandler doubleSlashFiles (str "/ui")).m.Open demoVersion (str "/index.html")).1 =
      .ok { Reader := stampedIndex demoVersion (str "<html></html>"),
            name := str "src/build/index.html",
            size := (stampedIndex demoVersion (str "<html></html>")).length } ∧
    ((newMemoryHandler doubleSlashFiles (str "/ui")).m.Open demoVersion
      (str "/ui/index.html")).1 ≠
    ((((newMemoryHandler doubleSlashFiles (str "/ui")).m.Open demoVersion
      (str "/ui/index.html")).2).Open demoVersion (str "/index.html")).1 :=
  ⟨rfl, by decide, by decide, by decide, by decide, by decide⟩

/-- C10: `NewHandler` returns an error exactly when the parse fails; on a parsed URL with
an empty host it builds the in-memory handler, mounted at `/` for an empty path and at the
parsed path otherwise; on a parsed URL with a host it returns the reverse proxy for that
URL, whatever the asset list is. -/
theorem NewHandler_selection (urlParse : GoString → Except GoString URL) (Files : List File)
    (urlStr : GoString) :
    (∀ u, urlParse urlStr = .ok u → u.Host = [] → u.Path = [] →
      NewHandler urlParse Files urlStr = .ok (.bundled (newMemoryHandler Files (str "/")))) ∧
    (∀ u, urlParse urlStr = .ok u → u.Host = [] → u.Path ≠ [] →
      NewHandler urlParse Files urlStr = .ok (.bundled (newMemoryHandler Files u.Path))) ∧
    (∀ u, urlParse urlStr = .ok u → u.Host ≠ [] →
      ∀ Files2, NewHandler urlParse Files2 urlStr = .ok (.reverseProxy u)) ∧
    ((∃ e, NewHandler urlParse Files urlStr = .error e) ↔ ∃ e, urlParse urlStr = .error e) ∧
    ((∃ hd, NewHandler urlParse Files urlStr = .ok hd) ↔ ∃ u, urlParse urlStr = .ok u) := by
  refine ⟨?_, ?_, ?_, ?_, ?_⟩
  · intro u hu hh hp
    simp [NewHandler, hu, hh, hp]
  · intro u hu hh hp
    simp [NewHandler, hu, hh, hp]
  · intro u hu hh Files2
    simp [NewHandler, hu, hh]
  · unfold NewHandler
    cases hu : urlParse urlStr with
    | error e => simp
    | ok u => simp only []; split <;> [split; skip] <;> simp
  · unfold NewHandler
    cases hu : urlParse urlStr with
    | error e => simp
    | ok u => simp only []; split <;> [split; skip] <;> simp

theorem NewHandler_selection_witness :
    demoParse (str "http://ui.example.com/app") = .ok ⟨str "ui.example.com", str "/app"⟩ ∧
    str "ui.example.com" ≠ [] ∧
    (∀ Files2, NewHandler demoParse Files2 (str "http://ui.example.com/app") =
      .ok (.reverseProxy ⟨str "ui.example.com", str "/app"⟩)) :=
  ⟨by decide, by decide,
    (NewHandler_selection demoParse demoFiles (str "http://ui.example.com/app")).2.2.1
      ⟨str "ui.example.com", str "/app"⟩ (by decide) (by decide)⟩

/-- C11: the table built by `newMemoryHandler` from the ordered collection `Files` has
the key `k` if and only if some blob of `Files` is named `k`, and the blob it holds under
`k` is the last blob of `Files` with that name: `b` followed only by blobs named
otherwise. -/
theorem asset_table_last_write_wins (Files : List File) (root k : GoString) :
    ((∃ b, (newMemoryHandler Files root).m.files k = some b) ↔ ∃ f ∈ Files, f.Name = k) ∧
    (∀ b, (newMemoryHandler Files root).m.files k = some b ↔
      ∃ pre post, Files = pre ++ b :: post ∧ b.Name = k ∧ ∀ f ∈ post, f.Name ≠ k) :=
  ⟨files_isSome_iff root k Files, fun b => files_some_iff root k b Files⟩

theorem asset_table_last_write_wins_witness :
    (newMemoryHandler
      [⟨str "src/build/a.js", str "old"⟩, ⟨str "src/build/b.js", str "b"⟩,
        ⟨str "src/build/a.js", str "new"⟩] (str "/")).m.files (str "src/build/a.js") =
      some ⟨str "src/build/a.js", str "new"⟩ :=
  ((asset_table_last_write_wins
      [⟨str "src/build/a.js", str "old"⟩, ⟨str "src/build/b.js", str "b"⟩,
        ⟨str "src/build/a.js", str "new"⟩] (str "/") (str "src/build/a.js")).2
    ⟨str "src/build/a.js", str "new"⟩).mpr
    ⟨[⟨str "src/build/a.js", str "old"⟩, ⟨str "src/build/b.js", str "b"⟩], [],
      by decide, by decide, by decide⟩

/-- C12: for every served file view and every clock reading `now`, `ModTime` is the zero
time when the name of the view contains `/static/` and `now` otherwise; every view that
`index` returns is named `src/build/index.html` and reports `now`, so the stamped index
reports `now` for whatever request path `Open` served it. -/
theorem ModTime_policy (f : memoryFile) (now : Time) :
    ((∃ a b, f.name = a ++ str "/static/" ++ b) → f.ModTime now = 0) ∧
    ((¬ ∃ a b, f.name = a ++ str "/static/" ++ b) → f.ModTime now = now) ∧
    (∀ (v : version) (m : memoryHandler) (view : memoryFile), (m.index v).1 = .ok view →
      view.name = str "src/build/index.html" ∧ view.ModTime now = now) ∧
    (∀ (v : version) (m : memoryHandler) (p : GoString) (view : memoryFile),
      (m.Open v p).1 = .ok view →
      (replaceFirst m.root (str "/") p = str "/index.html" ∨
        m.files (str "src/build" ++ replaceFirst m.root (str "/") p) = none) →
      view.name = str "src/build/index.html" ∧ view.ModTime now = now) := by
  have hidx : ∀ view : memoryFile, view.name = str "src/build/index.html" →
      view.ModTime now = now := by
    intro view hn
    have hc : stringsContains (str "/static/") (str "src/build/index.html") = false := by decide
    simp [memoryFile.ModTime, hn, hc]
  have hindex : ∀ (v : version) (m : memoryHandler) (view : memoryFile),
      (m.index v).1 = .ok view →
      view.name = str "src/build/index.html" ∧ view.ModTime now = now := by
    intro v m view hv
    have hn : view.name = str "src/build/index.html" := by
      rw [index_fst] at hv
      split at hv
      · exact absurd hv (by simp)
      · have := Except.ok.inj hv
        rw [← this]
    exact ⟨hn, hidx view hn⟩
  refine ⟨fun hc => ?_, fun hc => ?_, hindex, fun v m p view hv hp => ?_⟩
  · have hc2 := (stringsContains_iff _ _).mpr hc
    simp [memoryFile.ModTime, hc2]
  · have hc2 : stringsContains (str "/static/") f.name = false := by
      cases hs : stringsContains (str "/static/") f.name
      · rfl
      · exact absurd ((stringsContains_iff _ _).mp hs) hc
    simp [memoryFile.ModTime, hc2]
  · apply hindex v m view
    rw [← hv]
    unfold memoryHandler.Open
    simp only []
    rcases hp with hp | hp
    · rw [if_pos hp]
    · split
      · rfl
      · rw [hp]

theorem ModTime_policy_witness :
    (∃ a b, str "src/build/static/js/main.js" = a ++ str "/static/" ++ b) ∧
    memoryFile.ModTime 1730000000000000000
      ⟨str "x", str "src/build/static/js/main.js", 1⟩ = 0 ∧
    ((newMemoryHandler demoFiles (str "/")).m.Open demoVersion
      (str "/static/missing.js")).1.toOption.map (fun view => view.name) =
      some (str "src/build/index.html") ∧
    ((newMemoryHandler demoFiles (str "/")).m.Open demoVersion
      (str "/static/missing.js")).1.toOption.map (memoryFile.ModTime 1730000000000000000) =
      some 1730000000000000000 :=
  ⟨⟨str "src/build", str "js/main.js", by decide⟩,
    (ModTime_policy ⟨str "x", str "src/build/static/js/main.js", 1⟩ 1730000000000000000).1
      ⟨str "src/build", str "js/main.js", by decide⟩,
    by decide, by decide⟩

/-- C14 (amended): the empty mount root is upgraded to `/` before a handler is built from
it: for every input that parses to an empty host and an empty path, `NewHandler` builds the
handler that `newMemoryHandler` builds for the mount root `/`; and the middleware built
for the empty mount root hands every wrapped handler the same response state and the same
request as the middleware built for `/`. -/
theorem empty_mount_root_upgraded (urlParse : GoString → Except GoString URL)
    (Files : List File) (urlStr : GoString) (u : URL)
    (hu : urlParse urlStr = .ok u) (hh : u.Host = []) (hp : u.Path = []) :
    NewHandler urlParse Files urlStr = .ok (.bundled (newMemoryHandler Files (str "/"))) ∧
    (∀ (h : Handler) (w : ResponseWriter) (req : Request),
      rootFSFix [] h w req = rootFSFix (str "/") h w req) := by
  refine ⟨by simp [NewHandler, hu, hh, hp], fun h w req => ?_⟩
  have h0 : ¬ str "/" = [] := by decide
  simp only [rootFSFix, if_true, if_neg h0]

theorem empty_mount_root_upgraded_witness :
    demoParse [] = .ok ⟨[], []⟩ ∧
    NewHandler demoParse demoFiles [] = .ok (.bundled (newMemoryHandler demoFiles (str "/"))) ∧
    ((newMemoryHandler demoFiles (str "/")).m.Open demoVersion (str "/static/js/main.js")).1 =
      .ok { Reader := str "x", name := str "src/build/static/js/main.js", size := 1 } ∧
    rootFSFix [] echoHandler ⟨[]⟩ ⟨str "/"⟩ = rootFSFix (str "/") echoHandler ⟨[]⟩ ⟨str "/"⟩ :=
  ⟨by decide,
    (empty_mount_root_upgraded demoParse demoFiles [] ⟨[], []⟩ (by decide) rfl rfl).1,
    by decide,
    (empty_mount_root_upgraded demoParse demoFiles [] ⟨[], []⟩ (by decide) rfl rfl).2
      echoHandler ⟨[]⟩ ⟨str "/"⟩⟩

/-- C14 as stated fails: `newMemoryHandler` called with the empty mount root stores it in
the adapter, whose `Open` then puts a slash in front of the request path:
`/static/js/main.js` becomes `//static/js/main.js`, which is no key, and the stamped index
is served where the adapter mounted at `/` serves the script. -/
theorem empty_root_adapter_serves_index_for_asset :
    (newMemoryHandler demoFiles []).root = [] ∧
    (newMemoryHandler demoFiles []).m.root = [] ∧
    replaceFirst [] (str "/") (str "/static/js/main.js") = str "//static/js/main.js" ∧
    ((newMemoryHandler demoFiles []).m.Open demoVersion (str "/static/js/main.js")).1 =
      .ok { Reader := stampedIndex demoVersion (str "<html></html>"),
            name := str "src/build/index.html",
            size := (stampedIndex demoVersion (str "<html></html>")).length } ∧
    ((newMemoryHandler demoFiles (str "/")).m.Open demoVersion (str "/static/js/main.js")).1 =
      .ok { Reader := str "x", name := str "src/build/static/js/main.js", size := 1 } ∧
    ((newMemoryHandler demoFiles []).m.Open demoVersion (str "/static/js/main.js")).1 ≠
    ((newMemoryHandler demoFiles (str "/")).m.Open demoVersion (str "/static/js/main.js")).1 :=
  ⟨rfl, rfl, by decide, by decide, by decide, by decide⟩

/-- C15: the mount root is replaced at its first occurrence wherever it stands: when the
first occurrence of `r` in `pre ++ r ++ post` is the one after `pre`, the path normalises
to `pre ++ "/" ++ post`; and mounted at `/ui/` over a table with `src/build/static/x.js`,
the request `/static/ui/x.js`, of which `/ui/` is no prefix, is served the bytes of that
asset, whose key is not `src/build/static/ui/x.js`. -/
theorem mount_root_replaced_anywhere :
    (∀ r pre post : GoString,
      (∀ a b, pre ++ r ++ post = a ++ r ++ b → pre.length ≤ a.length) →
      replaceFirst r (str "/") (pre ++ r ++ post) = pre ++ str "/" ++ post) ∧
    (∃ (r p : GoString) (Files : List File) (b : File),
      r = str "/ui/" ∧ p = str "/static/ui/x.js" ∧
      r.isPrefixOf p = false ∧
      (newMemoryHandler Files r).m.files (str "src/build/static/x.js") = some b ∧
      ((newMemoryHandler Files r).m.Open demoVersion p).1 =
        .ok { Reader := b.Data, name := b.Name, size := b.Data.length } ∧
      str "src/build/static/x.js" ≠ str "src/build" ++ p ∧
      (newMemoryHandler Files r).m.files (str "src/build" ++ p) = none) :=
  ⟨fun r pre post h => replaceFirst_first r (str "/") pre post h,
    str "/ui/", str "/static/ui/x.js", uiScriptFiles, ⟨str "src/build/static/x.js", str "x"⟩,
    rfl, rfl, by decide, by decide, by decide, by decide, by decide⟩

theorem mount_root_replaced_anywhere_witness :
    replaceFirst (str "/ui/") (str "/") (str "/static" ++ str "/ui/" ++ str "x.js") =
      str "/static" ++ str "/" ++ str "x.js" :=
  mount_root_replaced_anywhere.1 (str "/ui/") (str "/static") (str "x.js")
    (first_of_forall_drop _ _ _ (by decide))

/-- C16: for every mount root, response state and request there are one response state
(the given one, with or without the cache header) and one request with which every
wrapped handler is called, and the middleware returns the result of that call; when the
request path differs from the (upgraded) mount root, that request is the incoming one,
path unchanged.  A wrapped handler that records its calls is called once. -/
theorem rootFSFix_calls_wrapped_handler_once (root : GoString) (w : ResponseWriter)
    (req : Request) :
    (req.Path ≠ (if root = [] then str "/" else root) →
      ∃ w2 : ResponseWriter,
        (w2 = w ∨ w2 = ⟨w.Header ++
          [(str "Cache-Control", str "public, immutable, max-age=315360000")]⟩) ∧
        ∀ h : Handler, rootFSFix root h w req = h w2 req) ∧
    (∃ (w2 : ResponseWriter) (req2 : Request),
      (w2 = w ∨ w2 = ⟨w.Header ++
        [(str "Cache-Control", str "public, immutable, max-age=315360000")]⟩) ∧
      ∀ h : Handler, rootFSFix root h w req = h w2 req2) ∧
    ((rootFSFix root echoHandler w req).Header.filter (fun e => e.1 = str "path")).length =
      (w.Header.filter (fun e => e.1 = str "path")).length + 1 := by
  have hall : ∃ (w2 : ResponseWriter) (req2 : Request),
      (w2 = w ∨ w2 = ⟨w.Header ++
        [(str "Cache-Control", str "public, immutable, max-age=315360000")]⟩) ∧
      (req.Path ≠ (if root = [] then str "/" else root) → req2 = req) ∧
      ∀ h : Handler, rootFSFix root h w req = h w2 req2 := by
    by_cases hr : req.Path = (if root = [] then str "/" else root)
    · cases hc : stringsContains (str "/static/")
        (pathJoin [if root = [] then str "/" else root, str "alerts"])
      · exact ⟨w, ⟨pathJoin [if root = [] then str "/" else root, str "alerts"]⟩, Or.inl rfl,
          fun h => absurd hr h,
          fun h => by simp only [rootFSFix, if_pos hr, hc, Bool.false_eq_true, if_false]⟩
      · exact ⟨_, ⟨pathJoin [if root = [] then str "/" else root, str "alerts"]⟩, Or.inr rfl,
          fun h => absurd hr h,
          fun h => by simp only [rootFSFix, if_pos hr, hc, if_true]⟩
    · cases hc : stringsContains (str "/static/") req.Path
      · exact ⟨w, req, Or.inl rfl, fun _ => rfl,
          fun h => by simp only [rootFSFix, if_neg hr, hc, Bool.false_eq_true, if_false]⟩
      · exact ⟨_, req, Or.inr rfl, fun _ => rfl,
          fun h => by simp only [rootFSFix, if_neg hr, hc, if_true]⟩
  obtain ⟨w2, req2, hw, hreq, hh⟩ := hall
  refine ⟨fun hne => ⟨w2, hw, fun h => ?_⟩, ⟨w2, req2, hw, hh⟩, ?_⟩
  · rw [hh h, hreq hne]
  · rw [hh echoHandler]
    have hcc : ¬ str "Cache-Control" = str "path" := by decide
    rcases hw with hw | hw <;> rw [hw] <;> simp [echoHandler, hcc]

theorem rootFSFix_calls_wrapped_handler_once_witness :
    str "/ui/alerts/7" ≠ (if str "/ui/" = [] then str "/" else str "/ui/") ∧
    rootFSFix (str "/ui/") echoHandler ⟨[]⟩ ⟨str "/ui/alerts/7"⟩ =
      ⟨[(str "path", str "/ui/alerts/7")]⟩ ∧
    ((rootFSFix (str "/ui/") echoHandler ⟨[]⟩ ⟨str "/ui/alerts/7"⟩).Header.filter
      (fun e => e.1 = str "path")).length = 1 :=
  ⟨by decide, by decide,
    (rootFSFix_calls_wrapped_handler_once (str "/ui/") ⟨[]⟩ ⟨str "/ui/alerts/7"⟩).2.2⟩

/-- C17: on an adapter built by `newMemoryHandler`, after any history of calls, `index`
reports `not found` if and only if the index blob is absent or its data is empty; for a
blob with non-empty data it returns a view over the non-empty stamped bytes whose size is
their length. -/
theorem index_available_iff_blob_nonempty (v : version) (Files : List File)
    (root : GoString) (hist : List Call) :
    ((((newMemoryHandler Files root).m.run v hist).index v).1 = .error (str "not found") ↔
      ((newMemoryHandler Files root).m.files (str "src/build/index.html") = none ∨
        ∃ f, (newMemoryHandler Files root).m.files (str "src/build/index.html") = some f ∧
          f.Data = [])) ∧
    (∀ f, (newMemoryHandler Files root).m.files (str "src/build/index.html") = some f →
      f.Data ≠ [] →
      ∃ view, (((newMemoryHandler Files root).m.run v hist).index v).1 = .ok view ∧
        view.Reader = stampedIndex v f.Data ∧ view.Reader ≠ [] ∧
        view.size = view.Reader.length) := by
  rw [(index_reachable v Files root hist).1]
  constructor
  · cases hf : (newMemoryHandler Files root).m.files (str "src/build/index.html") with
    | none =>
      rw [indexView_of_none v _ hf]
      simp
    | some f =>
      by_cases hd : f.Data = []
      · have : indexView v (newMemoryHandler Files root).m.files = .error (str "not found") := by
          simp [indexView, cachedIndex, hf, hd, stampedIndex_nil]
        rw [this]
        simp [hd]
      · rw [indexView_of_some v _ f hf hd]
        simp [hd]
  · intro f hf hd
    rw [indexView_of_some v _ f hf hd]
    exact ⟨_, rfl, rfl, stampedIndex_ne_nil v f.Data hd, rfl⟩

theorem index_available_iff_blob_nonempty_witness :
    (newMemoryHandler emptyIndexFiles (str "/")).m.files (str "src/build/index.html") =
      some ⟨str "src/build/index.html", []⟩ ∧
    (((newMemoryHandler emptyIndexFiles (str "/")).m.run demoVersion []).index demoVersion).1 =
      .error (str "not found") :=
  ⟨by decide,
    (index_available_iff_blob_nonempty demoVersion emptyIndexFiles (str "/") []).1.mpr
      (Or.inr ⟨⟨str "src/build/index.html", []⟩, by decide, rfl⟩)⟩

/-- C18: on an adapter built by `newMemoryHandler` with the index document `f`, after any
history of calls, the cached index that `index` leaves is the document itself when it
does not contain `</html>`, and is longer than the document by exactly the length of the
comment block when it does. -/
theorem index_without_closing_tag_unchanged (v : version) (Files : List File)
    (root : GoString) (hist : List Call) (f : File)
    (hidx : (newMemoryHandler Files root).m.files (str "src/build/index.html") = some f) :
    ((¬ ∃ a b, f.Data = a ++ str "</html>" ++ b) →
      (((newMemoryHandler Files root).m.run v hist).index v).2.indexData = f.Data) ∧
    ((∃ a b, f.Data = a ++ str "</html>" ++ b) →
      (((newMemoryHandler Files root).m.run v hist).index v).2.indexData.length =
        f.Data.length +
          (str "\n\n<!-- Version: " ++ v.GitVersion ++ str " -->\n<!-- GitCommit: " ++
            v.GitCommit ++ str " (" ++ v.GitTreeState ++ str ") -->\n<!-- BuildDate: " ++
            v.BuildDate ++ str " -->\n\n").length) := by
  have hc : (((newMemoryHandler Files root).m.run v hist).index v).2.indexData =
      stampedIndex v f.Data := by
    rw [(index_reachable v Files root hist).2]
    simp [cachedIndex, hidx]
  rw [hc]
  constructor
  · intro hn
    have hs : stringsContains (str "</html>") f.Data = false := by
      cases hs : stringsContains (str "</html>") f.Data
      · rfl
      · exact absurd ((stringsContains_iff _ _).mp hs) hn
    exact replaceFirst_of_not_contains _ _ _ hs
  · intro hy
    have hs := (stringsContains_iff _ _).mpr hy
    have hl := replaceFirst_length (str "</html>")
      (Sprintf footer [v.GitVersion, v.GitCommit, v.GitTreeState, v.BuildDate]) f.Data hs
    rw [stamp_eq] at hl
    have h7 : (str "</html>").length = 7 := by decide
    have hend : (str " -->\n\n</html>").length = (str " -->\n\n").length + 7 := by decide
    unfold stampedIndex
    rw [stamp_eq]
    simp only [List.length_append] at hl ⊢
    omega

theorem index_without_closing_tag_unchanged_witness :
    (newMemoryHandler noTagFiles (str "/")).m.files (str "src/build/index.html") =
      some ⟨str "src/build/index.html", str "<html>"⟩ ∧
    stringsContains (str "</html>") (str "<html>") = false ∧
    (((newMemoryHandler noTagFiles (str "/")).m.run demoVersion []).index demoVersion).2.indexData =
      str "<html>" :=
  ⟨by decide, by decide,
    (index_without_closing_tag_unchanged demoVersion noTagFiles (str "/") []
      ⟨str "src/build/index.html", str "<html>"⟩ (by decide)).1
      (fun hc => absurd ((stringsContains_iff _ _).mpr hc) (by decide))⟩

/-- C19: on an adapter mounted at `/`, after any history of calls, normalisation leaves
every request path as it is, and `Open(p)` returns what `index` returns when `p` is
`/index.html`, the view over the raw blob stored under `"src/build" ++ p` when `p` is
another path with that key, and what `index` returns otherwise; with a non-empty index
blob, what `index` returns is the stamped index. -/
theorem default_mount_dispatch (v : version) (Files : List File) (hist : List Call)
    (p : GoString) :
    replaceFirst (str "/") (str "/") p = p ∧
    (p = str "/index.html" →
      ((newMemoryHandler Files (str "/")).m.run v hist).Open v p =
        ((newMemoryHandler Files (str "/")).m.run v hist).index v) ∧
    (p ≠ str "/index.html" →
      ∀ b, (newMemoryHandler Files (str "/")).m.files (str "src/build" ++ p) = some b →
        ((newMemoryHandler Files (str "/")).m.run v hist).Open v p =
          (.ok { Reader := b.Data, name := b.Name, size := b.Data.length },
            (newMemoryHandler Files (str "/")).m.run v hist)) ∧
    (p ≠ str "/index.html" →
      (newMemoryHandler Files (str "/")).m.files (str "src/build" ++ p) = none →
        ((newMemoryHandler Files (str "/")).m.run v hist).Open v p =
          ((newMemoryHandler Files (str "/")).m.run v hist).index v) ∧
    (∀ f, (newMemoryHandler Files (str "/")).m.files (str "src/build/index.html") = some f →
      f.Data ≠ [] →
      (((newMemoryHandler Files (str "/")).m.run v hist).index v).1 =
        .ok { Reader := stampedIndex v f.Data, name := str "src/build/index.html",
              size := (stampedIndex v f.Data).length }) := by
  obtain ⟨_, hfiles, hroot⟩ := run_spec v hist _ (Inv_new v Files (str "/"))
  have hroot2 : ((newMemoryHandler Files (str "/")).m.run v hist).root = str "/" := hroot
  have hn : replaceFirst ((newMemoryHandler Files (str "/")).m.run v hist).root (str "/") p = p := by
    rw [hroot2]; exact replaceFirst_self _ _
  refine ⟨replaceFirst_self _ _, fun hp => ?_, fun hp b hb => ?_, fun hp hb => ?_,
    fun f hf hd => ?_⟩
  · unfold memoryHandler.Open
    simp only [hn, if_pos hp]
  · unfold memoryHandler.Open
    simp only [hn, if_neg hp, hfiles, hb]
  · unfold memoryHandler.Open
    simp only [hn, if_neg hp, hfiles, hb]
  · rw [(index_reachable v Files (str "/") hist).1]
    exact indexView_of_some v _ f hf hd

theorem default_mount_dispatch_witness :
    str "/static/js/main.js" ≠ str "/index.html" ∧
    (newMemoryHandler demoFiles (str "/")).m.files (str "src/build" ++ str "/static/js/main.js") =
      some ⟨str "src/build/static/js/main.js", str "x"⟩ ∧
    (((newMemoryHandler demoFiles (str "/")).m.run demoVersion [.index]).Open demoVersion
      (str "/static/js/main.js")).1 =
      .ok { Reader := str "x", name := str "src/build/static/js/main.js", size := 1 } :=
  ⟨by decide, by decide,
    congrArg Prod.fst
      ((default_mount_dispatch demoVersion demoFiles [.index] (str "/static/js/main.js")).2.2.1
        (by decide) ⟨str "src/build/static/js/main.js", str "x"⟩ (by decide))⟩

end web
